import Mathlib

/-!
Verification of the vivarium state-composition engine against its
natural-language specification.  Each definition is a shallow embedding of a
function of the source tree (file and symbol named in its doc comment);
machine floats are modelled as rationals, Python dicts as lookup functions,
and Python's `random.uniform` draws as explicit rational arguments.
-/

namespace Vivarium

/-! ## Dictionaries (Python dict semantics, extensional) -/

/-- A Python dict with string keys and integer values, modelled extensionally
as its lookup function (Python dict equality ignores insertion order). -/
abbrev PyDict := String → Option ℤ

/-- The empty dict. -/
def emptyDict : PyDict := fun _ => none

/-- A one-entry dict. -/
def singletonDict (k : String) (v : ℤ) : PyDict :=
  fun q => if q = k then some v else none

/-- Python `d.update(e)`: keys of `e` are added, existing keys overwritten. -/
def dict_update (d e : PyDict) : PyDict :=
  fun k =>
    match e k with
    | some v => some v
    | none => d k

/-- `merge_dicts` from `src/vivarium/utils/dict_utils.py`:
starts from an empty dict and runs `merge.update(d)` over the list in order. -/
def merge_dicts (dicts : List PyDict) : PyDict :=
  dicts.foldl dict_update emptyDict

/-- Two dicts have disjoint key sets. -/
def DictDisjoint (d e : PyDict) : Prop :=
  ∀ k, d k = none ∨ e k = none

/-! ## Updaters.

Modelled from the spec: the updater registry (`vivarium/core`) is not under
`src/`; `accumulate` is current + proposed, exactly the repeated `+=`
application in `test_convenience_kinetics`
(`src/vivarium/processes/convenience_kinetics.py`), and `null` ignores the
proposed value. -/

/-- Modelled from the spec: the `accumulate` updater, current + proposed. -/
def accumulate_updater (current proposed : ℚ) : ℚ := current + proposed

/-- Modelled from the spec: the `null` updater, which ignores the proposed
value. -/
def null_updater (current _proposed : ℚ) : ℚ := current

/-! ## Split divider.

Modelled from the spec: the divider registry is not under `src/` (only the
`'_divider': 'split'` declaration in
`src/vivarium/processes/derive_concentrations.py` is); per the spec, `split`
apportions an integer count via floor/remainder, remainder to a fixed
deterministic side, the two halves summing exactly to the original. -/

/-- Modelled from the spec: the `split` divider on a non-negative integer
count; the first daughter receives the remainder. -/
def split_divider (v : ℕ) : ℕ × ℕ := (v / 2 + v % 2, v / 2)

/-! ## DeriveConcentrations and the lattice clamp -/

/-- `DeriveConcentrations.next_update` from
`src/vivarium/processes/derive_concentrations.py`: each concentration is the
count divided by `mmol_to_counts`; the `assert concentration >= 0` loop makes
any negative derived concentration an error. -/
def derive_concentrations_next_update (mmol_to_counts : ℚ)
    (counts : List (String × ℚ)) : Except String (List (String × ℚ)) :=
  let concentrations := counts.map fun p => (p.1, p.2 / mmol_to_counts)
  if concentrations.all fun p => 0 ≤ p.2 then
    Except.ok concentrations
  else
    Except.error "derived concentration < 0"

/-- The final statement of `EnvironmentSpatialLattice.evolve` in
`src/environment/lattice.py`: `self.lattice[self.lattice < 0.0] = 0.0`,
which replaces every negative stored concentration by zero. -/
def lattice_clamp (lattice : List ℚ) : List ℚ :=
  lattice.map fun c => if c < 0 then 0 else c

/-! ## Python `int` and the transcription elongation carry -/

/-- Python's `int()` on a rational: truncation toward zero. -/
def python_int (x : ℚ) : ℤ :=
  if 0 ≤ x then ⌊x⌋ else ⌈x⌉

/-- The carry line of `Transcription.next_update`
(`src/vivarium/processes/transcription.py`):
`self.elongation = elongation.elongation - int(elongation.elongation)`. -/
def elongation_carry (e : ℚ) : ℚ := e - python_int e

/-! ## Tumor process -/

/-- Parameters of `TumorProcess` (`src/vivarium/processes/tumors.py`)
used by `next_update`. -/
structure TumorParams where
  death_PDL1p : ℚ
  death_PDL1n : ℚ
  PDL1n_growth : ℚ
  self_path : List String

/-- The three possible return shapes of `TumorProcess.next_update`:
a structural delete directive `{'_delete': {'path': ...}}`, a division
request `{'globals': {'divide': True}}`, or the ordinary state update
`{'internal': {'cell_state': ...}, 'boundary': {'MHCI': ..., 'PDL1': ...}}`. -/
inductive TumorUpdate where
  | delete (path : List String)
  | divide
  | state (cell_state : String) (mhci pdl1 : ℚ)
  deriving DecidableEq, Repr

/-- `TumorProcess.next_update` from `src/vivarium/processes/tumors.py`; the
`random.uniform(0, 1)` draws of the death and division checks are passed in
explicitly as `r_death` and `r_divide`. -/
def tumor_next_update (p : TumorParams) (r_death r_divide : ℚ)
    (timestep : ℚ) (cell_state : String) : TumorUpdate :=
  if cell_state = "PDL1n" then
    if r_death < p.death_PDL1n * timestep then
      TumorUpdate.delete p.self_path
    else if r_divide < p.PDL1n_growth * timestep then
      TumorUpdate.divide
    else
      TumorUpdate.state cell_state 0 0
  else if cell_state = "PDL1p" then
    if r_death < p.death_PDL1p * timestep then
      TumorUpdate.delete p.self_path
    else
      TumorUpdate.state cell_state 0 0
  else
    TumorUpdate.state cell_state 0 0

/-! ## TimelineProcess

`TimelineProcess.next_update` (`src/vivarium/processes/timeline.py`) begins
with `update = {'global': {'time': timestep}}`, then runs a `for` loop over
`self.timeline`; on every event `(t, change_dict)` with `time >= t` it writes
`{'_value': value, '_updater': 'set'}` into `update[port][variable]` for each
`((port, variable), value)` in `change_dict`, and calls
`self.timeline.pop(0)`.

Popping the front of the list that the `for` loop is iterating over has
CPython's list-iterator semantics: the iterator holds a cursor `i`, reads the
current list at index `i` and increments `i` each round, while `pop(0)`
shifts the remaining elements left by one.  Since every `pop` removes index 0
and the cursor only grows, after `p` pops the current list is `tl.drop p` and
the element read at cursor `i` is `tl[p + i]`; an iteration that pops
therefore advances past TWO elements of the as-yet-unvisited suffix (the one
it read and the one that slid under the cursor), and an iteration that does
not pop advances past one.  `timeline_visit` walks that unvisited suffix and
returns the built update together with the number of pops. -/

/-- A timeline event: a time threshold plus the list of
`((port, variable), value)` assignments of its `change_dict`. -/
abbrev TimelineEvent := ℚ × List ((String × String) × ℚ)

/-- An entry of a returned update: either a plain proposed value (combined by
the schema updater, `accumulate` for `global/time`) or an explicit
`{'_value': v, '_updater': 'set'}` dict. -/
inductive UpdVal where
  | plain (v : ℚ)
  | setv (v : ℚ)
  deriving DecidableEq, Repr

/-- A (nested) update dict, flattened to its lookup on `(port, variable)`. -/
abbrev UpdMap := String × String → Option UpdVal

/-- Write one entry of an update dict. -/
def upd_insert (u : UpdMap) (key : String × String) (v : UpdVal) : UpdMap :=
  fun k => if k = key then some v else u k

/-- The update as initialized by `TimelineProcess.next_update`:
`{'global': {'time': timestep}}`. -/
def timeline_init_update (timestep : ℚ) : UpdMap :=
  fun k => if k = ("global", "time") then some (UpdVal.plain timestep) else none

/-- Write a fired event's `change_dict` into the update:
`update[port][variable] = {'_value': value, '_updater': 'set'}`. -/
def apply_changes (u : UpdMap) (changes : List ((String × String) × ℚ)) :
    UpdMap :=
  changes.foldl (fun acc c => upd_insert acc c.1 (UpdVal.setv c.2)) u

/-- The `for` loop of `TimelineProcess.next_update` on the unvisited suffix
of the timeline, per the iterator semantics described above; returns the
update and the number of `pop(0)` calls performed. -/
def timeline_visit (time : ℚ) : List TimelineEvent → UpdMap → UpdMap × ℕ
  | [], u => (u, 0)
  | [e], u =>
    if e.1 ≤ time then (apply_changes u e.2, 1) else (u, 0)
  | e :: f :: rest, u =>
    if e.1 ≤ time then
      let r := timeline_visit time rest (apply_changes u e.2)
      (r.1, r.2 + 1)
    else
      timeline_visit time (f :: rest) u

/-- `TimelineProcess.next_update`: builds the update from the observed
`states['global']['time']` and the instance's current timeline, and returns
it together with the timeline left in the instance (the original minus the
popped front elements). -/
def timeline_next_update (timestep time : ℚ) (tl : List TimelineEvent) :
    UpdMap × List TimelineEvent :=
  let r := timeline_visit time tl (timeline_init_update timestep)
  (r.1, tl.drop r.2)

/-! ## Lattice run loop -/

/-- `EnvironmentSpatialLattice.run_incremental` from
`src/environment/lattice.py`:
`while self._time < run_until: self._time += self._timestep; self.evolve()`.
The loop is written on explicit fuel (the theorems below show any fuel at
least `ceil((run_until - t) / d)` is enough); the result is the final clock
together with the list of clock values at which `evolve` was invoked. -/
def run_incremental (d run_until : ℚ) : ℕ → ℚ → ℚ × List ℚ
  | 0, t => (t, [])
  | fuel + 1, t =>
    if t < run_until then
      let r := run_incremental d run_until fuel (t + d)
      (r.1, (t + d) :: r.2)
    else
      (t, [])

/-! ## Transcription -/

/-- `choose_element` from `src/vivarium/processes/transcription.py`: on a
non-empty collection it picks the element at a uniformly drawn index (the
draw is passed in as `rand`, reduced modulo the length); on an empty one it
falls through and returns `None`. -/
def choose_element {α : Type} (rand : ℕ) (elements : List α) : Option α :=
  if elements.isEmpty then none
  else elements.get? (rand % elements.length)

/-- The sub-step clock dynamics of the `while time < timestep` loop of
`Transcription.next_update` (`src/vivarium/processes/transcription.py`):
each iteration computes `interval = distance / elongation_rate` from the
current terminator distance (a whole number of monomers, supplied by the
oracle `dist` since `chromosome.terminator_distance` is outside `src/`) and
ends with `time += interval`.  Written on explicit fuel; returns `some`
final sub-step time as soon as the guard fails, `none` if fuel runs out
with the guard still true. -/
def transcription_loop (elongation_rate : ℚ) (dist : ℕ → ℕ)
    (timestep : ℚ) : ℕ → ℕ → ℚ → Option ℚ
  | 0, _, time => if time < timestep then none else some time
  | fuel + 1, i, time =>
    if time < timestep then
      transcription_loop elongation_rate dist timestep fuel (i + 1)
        (time + dist i / elongation_rate)
    else
      some time

/-! # Theorems -/

/-- C6: Split-divider conservation.  For every variable carrying a
non-negative integer value `v`, the `split` divider produces exactly two
daughter values summing exactly to `v`, with the integer remainder assigned
to the first (fixed, deterministic) side; in particular `v = 7` yields
daughters `4` and `3`. -/
theorem split_divider_conserves :
    (∀ v : ℕ,
        (split_divider v).1 + (split_divider v).2 = v ∧
        (split_divider v).1 = v / 2 + v % 2 ∧
        (split_divider v).2 = v / 2) ∧
    split_divider 7 = (4, 3) := by
  refine ⟨fun v => ⟨?_, rfl, rfl⟩, by decide⟩
  simp only [split_divider]
  omega

/-- C8: Fractional-progress carry invariant.  The accumulator stored by
`Transcription.next_update`, `elongation.elongation -
int(elongation.elongation)`, equals the fractional part of the total
elongation progress `e` reached during the call and lies in `[0, 1)`,
provided the progress is non-negative. -/
theorem elongation_carry_is_fract (e : ℚ) (h : 0 ≤ e) :
    elongation_carry e = Int.fract e ∧
      0 ≤ elongation_carry e ∧ elongation_carry e < 1 := by
  have hpi : python_int e = ⌊e⌋ := by simp [python_int, h]
  have hfract : elongation_carry e = Int.fract e := by
    rw [elongation_carry, hpi, Int.fract]
  exact ⟨hfract, hfract ▸ Int.fract_nonneg e, hfract ▸ Int.fract_lt_one e⟩

/-- Witness for C8 at the concrete progress value `7/2`: the carry is its
fractional part and lies in `[0, 1)`. -/
theorem elongation_carry_is_fract_witness :
    0 ≤ (7 / 2 : ℚ) ∧
      (elongation_carry (7 / 2) = Int.fract (7 / 2 : ℚ) ∧
        0 ≤ elongation_carry (7 / 2) ∧ elongation_carry (7 / 2) < 1) :=
  ⟨div_nonneg (by decide) (by decide),
    elongation_carry_is_fract (7 / 2) (div_nonneg (by decide) (by decide))⟩

/-- C10: Atomicity of agent death.  Whenever `TumorProcess.next_update`
returns a delete directive, the returned update is exactly the structural
`_delete` directive whose path is the configured `self_path` — the
`TumorUpdate.delete` shape carries no port writes at all. -/
theorem tumor_delete_is_atomic (p : TumorParams) (r_death r_divide : ℚ)
    (timestep : ℚ) (cell_state : String) (path : List String)
    (h : tumor_next_update p r_death r_divide timestep cell_state
        = TumorUpdate.delete path) :
    path = p.self_path ∧
      tumor_next_update p r_death r_divide timestep cell_state
        = TumorUpdate.delete p.self_path := by
  have hp : path = p.self_path := by
    unfold tumor_next_update at h
    split_ifs at h <;> simp_all
  exact ⟨hp, hp ▸ h⟩

/-- Witness for C10: a PDL1n cell whose death draw fires returns exactly the
delete directive on its configured `self_path`. -/
theorem tumor_delete_is_atomic_witness :
    ["agents", "0"] = (TumorParams.mk 0 1 0 ["agents", "0"]).self_path ∧
      tumor_next_update (TumorParams.mk 0 1 0 ["agents", "0"]) 0 0 1 "PDL1n"
        = TumorUpdate.delete (TumorParams.mk 0 1 0 ["agents", "0"]).self_path :=
  tumor_delete_is_atomic (TumorParams.mk 0 1 0 ["agents", "0"]) 0 0 1 "PDL1n"
    ["agents", "0"] (by simp [tumor_next_update])

/-- C2 counterexample: the last statement of
`EnvironmentSpatialLattice.evolve` silently replaces the negative stored
concentration `-1` by `0`, so it is not the case that no operation on stored
concentrations clamps a negative result to zero. -/
theorem lattice_clamp_counterexample :
    lattice_clamp [-1] = [0] ∧ (-1 : ℚ) < 0 := by decide

/-- C2 (amended): `DeriveConcentrations.next_update` raises exactly when some
derived concentration (count divided by `mmol_to_counts`) is negative; the
spatial lattice, by contrast, silently clamps negative stored concentrations
to zero in `evolve`, leaving every stored patch concentration non-negative. -/
theorem derive_concentrations_negative_is_fatal :
    (∀ (mmol_to_counts : ℚ) (counts : List (String × ℚ)),
        derive_concentrations_next_update mmol_to_counts counts
            = Except.error "derived concentration < 0"
          ↔ ∃ p ∈ counts, p.2 / mmol_to_counts < 0) ∧
    (∀ lattice : List ℚ, ∀ c ∈ lattice_clamp lattice, 0 ≤ c) := by
  constructor
  · intro m counts
    rw [derive_concentrations_next_update]
    split
    next hall =>
      simp only [List.all_eq_true, List.mem_map, decide_eq_true_eq] at hall
      constructor
      · intro h; exact absurd h (by simp)
      · rintro ⟨p, hp, hneg⟩
        exact absurd (hall (p.1, p.2 / m) ⟨p, hp, rfl⟩) (not_le.mpr hneg)
    next hall =>
      simp only [List.all_eq_true, List.mem_map, decide_eq_true_eq, not_forall]
        at hall
      obtain ⟨q, ⟨p, hp, hq⟩, hneg⟩ := hall
      subst hq
      exact iff_of_true rfl ⟨p, hp, not_le.mp hneg⟩
  · intro lattice c hc
    simp only [lattice_clamp, List.mem_map] at hc
    obtain ⟨x, -, hx⟩ := hc
    subst hx
    split
    · exact le_refl 0
    next hneg => exact not_lt.mp hneg

/-- Witness for C2 (amended) at concrete inputs: a count of `-1` with
`mmol_to_counts = 1` makes `next_update` raise, and the clamped lattice entry
produced from `-1` is non-negative. -/
theorem derive_concentrations_negative_is_fatal_witness :
    derive_concentrations_next_update 1 [("glc", -1)]
        = Except.error "derived concentration < 0" ∧ (0 : ℚ) ≤ 0 :=
  ⟨(derive_concentrations_negative_is_fatal.1 1 [("glc", -1)]).mpr
      ⟨("glc", -1), by decide, by simp⟩,
    derive_concentrations_negative_is_fatal.2 [-1] 0 (by decide)⟩

/-! ## Lemmas on `merge_dicts` -/

/-- Folding `dict_update` from any accumulator: the accumulated dicts win on
their keys, the starting accumulator answers everything else. -/
lemma foldl_dict_update_apply (ds : List PyDict) (acc : PyDict) (k : String) :
    ds.foldl dict_update acc k =
      match merge_dicts ds k with
      | some v => some v
      | none => acc k := by
  induction ds generalizing acc with
  | nil => simp [merge_dicts, emptyDict]
  | cons d ds ih =>
    show ds.foldl dict_update (dict_update acc d) k = _
    rw [ih (dict_update acc d)]
    have hm : merge_dicts (d :: ds) k
        = ds.foldl dict_update (dict_update emptyDict d) k := rfl
    rw [hm, ih (dict_update emptyDict d)]
    cases merge_dicts ds k with
    | some v => rfl
    | none =>
      show dict_update acc d k = _
      unfold dict_update emptyDict
      cases d k <;> rfl

/-- Unfolding `merge_dicts` on a cons: later dicts take precedence. -/
lemma merge_dicts_cons (d : PyDict) (ds : List PyDict) (k : String) :
    merge_dicts (d :: ds) k =
      match merge_dicts ds k with
      | some v => some v
      | none => d k := by
  have h : merge_dicts (d :: ds) k
      = ds.foldl dict_update (dict_update emptyDict d) k := rfl
  rw [h, foldl_dict_update_apply ds (dict_update emptyDict d) k]
  cases merge_dicts ds k with
  | some v => rfl
  | none =>
    show dict_update emptyDict d k = d k
    unfold dict_update emptyDict
    cases d k <;> rfl

/-- A key present in the merged dict is present in one of the inputs. -/
lemma merge_dicts_some_mem (ds : List PyDict) (k : String) (v : ℤ)
    (h : merge_dicts ds k = some v) : ∃ d ∈ ds, d k = some v := by
  induction ds with
  | nil => exact absurd h (by simp [merge_dicts, emptyDict])
  | cons d ds ih =>
    rw [merge_dicts_cons] at h
    cases hm : merge_dicts ds k with
    | some w =>
      rw [hm] at h
      obtain ⟨e, he, hev⟩ := ih (h ▸ hm)
      exact ⟨e, List.mem_cons_of_mem d he, hev⟩
    | none =>
      rw [hm] at h
      exact ⟨d, List.mem_cons_self d ds, h⟩

/-- A key absent from every input is absent from the merged dict. -/
lemma merge_dicts_none (ds : List PyDict) (k : String)
    (h : ∀ d ∈ ds, d k = none) : merge_dicts ds k = none := by
  induction ds with
  | nil => rfl
  | cons d ds ih =>
    rw [merge_dicts_cons,
      ih fun e he => h e (List.mem_cons_of_mem d he),
      h d (List.mem_cons_self d ds)]

/-- With pairwise-disjoint key sets, the merged dict answers a key exactly
as the unique input dict holding that key does. -/
lemma merge_dicts_mem_some (ds : List PyDict)
    (hd : ds.Pairwise DictDisjoint) (d : PyDict) (hmem : d ∈ ds)
    (k : String) (v : ℤ) (h : d k = some v) : merge_dicts ds k = some v := by
  induction ds with
  | nil => cases hmem
  | cons e ds ih =>
    rw [List.pairwise_cons] at hd
    rcases List.mem_cons.mp hmem with he | hds
    · subst he
      have hnone : ∀ e' ∈ ds, e' k = none := by
        intro e' he'
        rcases hd.1 e' he' k with h0 | h0
        · exact absurd h (h0 ▸ (by simp))
        · exact h0
      rw [merge_dicts_cons, merge_dicts_none ds k hnone, h]
    · rw [merge_dicts_cons, ih hd.2 hds]

/-- C1 counterexample: `merge_dicts` is not permutation invariant — two
one-key dicts on the same key merge to different values under the two
orders, so applying a set of `merge`-updater updates in different
permutations can yield different final trees. -/
theorem merge_order_counterexample :
    [singletonDict "a" 1, singletonDict "a" 2].Perm
      [singletonDict "a" 2, singletonDict "a" 1] ∧
    merge_dicts [singletonDict "a" 1, singletonDict "a" 2] "a" = some 2 ∧
    merge_dicts [singletonDict "a" 2, singletonDict "a" 1] "a" = some 1 :=
  ⟨List.Perm.swap (singletonDict "a" 2) (singletonDict "a" 1) [],
    by decide, by decide⟩

/-- C1 (amended): Merge order independence holds for the `accumulate` and
`null` updaters — repeated `+=` application of numeric deltas (and trivially
the ignore-updater) is permutation invariant — and for `merge` only when the
merged dicts have pairwise-disjoint key sets; with overlapping keys
`merge_dicts` is order-dependent (see the counterexample). -/
theorem merge_order_independence :
    (∀ (init : ℚ) (l1 l2 : List ℚ), l1.Perm l2 →
        l1.foldl accumulate_updater init = l2.foldl accumulate_updater init) ∧
    (∀ (init : ℚ) (l1 l2 : List ℚ), l1.Perm l2 →
        l1.foldl null_updater init = l2.foldl null_updater init) ∧
    (∀ ds1 ds2 : List PyDict, ds1.Perm ds2 → ds1.Pairwise DictDisjoint →
        ∀ k, merge_dicts ds1 k = merge_dicts ds2 k) := by
  have hacc : ∀ (init : ℚ) (l : List ℚ),
      l.foldl accumulate_updater init = init + l.sum := by
    intro init l
    induction l generalizing init with
    | nil => simp
    | cons x xs ih => simp [accumulate_updater, ih, add_assoc]
  have hnull : ∀ (init : ℚ) (l : List ℚ),
      l.foldl null_updater init = init := by
    intro init l
    induction l with
    | nil => rfl
    | cons x xs ih => simpa [null_updater] using ih
  refine ⟨fun init l1 l2 hp => ?_, fun init l1 l2 hp => ?_,
    fun ds1 ds2 hperm hdisj k => ?_⟩
  · rw [hacc, hacc, hp.sum_eq]
  · rw [hnull, hnull]
  · have hdisj2 : ds2.Pairwise DictDisjoint :=
      (hperm.pairwise_iff fun h k => (h k).symm).mp hdisj
    cases h1 : merge_dicts ds1 k with
    | some v =>
      obtain ⟨d, hmem, hdk⟩ := merge_dicts_some_mem ds1 k v h1
      exact (merge_dicts_mem_some ds2 hdisj2 d (hperm.mem_iff.mp hmem)
        k v hdk).symm
    | none =>
      cases h2 : merge_dicts ds2 k with
      | some v =>
        obtain ⟨d, hmem, hdk⟩ := merge_dicts_some_mem ds2 k v h2
        exact absurd (merge_dicts_mem_some ds1 hdisj d
          (hperm.mem_iff.mpr hmem) k v hdk) (h1 ▸ (by simp))
      | none => rfl

/-- Witness for C1 (amended) at concrete inputs: two accumulate deltas in
either order, and two key-disjoint dicts in either order. -/
theorem merge_order_independence_witness :
    ([1, 2] : List ℚ).foldl accumulate_updater 0
        = ([2, 1] : List ℚ).foldl accumulate_updater 0 ∧
      merge_dicts [singletonDict "a" 1, singletonDict "b" 2] "a"
        = merge_dicts [singletonDict "b" 2, singletonDict "a" 1] "a" := by
  have hperm1 : ([1, 2] : List ℚ).Perm [2, 1] := List.Perm.swap 2 1 []
  have hperm2 : [singletonDict "a" 1, singletonDict "b" 2].Perm
      [singletonDict "b" 2, singletonDict "a" 1] :=
    List.Perm.swap (singletonDict "b" 2) (singletonDict "a" 1) []
  have hdisj : [singletonDict "a" 1,
      singletonDict "b" 2].Pairwise DictDisjoint := by
    refine List.Pairwise.cons ?_ (List.pairwise_singleton _ _)
    intro d hd
    rw [List.mem_singleton] at hd
    subst hd
    intro k
    by_cases h : k = "a"
    · subst h
      right
      simp [singletonDict]
    · left
      simp [singletonDict, h]
  exact ⟨merge_order_independence.1 0 [1, 2] [2, 1] hperm1,
    merge_order_independence.2.2 _ _ hperm2 hdisj "a"⟩

/-! ## Lemmas on `TimelineProcess` -/

/-- If no event's threshold has been reached, the timeline loop writes
nothing and pops nothing. -/
lemma timeline_visit_no_fire (time : ℚ) (tl : List TimelineEvent)
    (u : UpdMap) (h : ∀ e ∈ tl, time < e.1) :
    timeline_visit time tl u = (u, 0) := by
  induction tl generalizing u with
  | nil => rfl
  | cons e rest ih =>
    have he : ¬ e.1 ≤ time := not_le.mpr (h e (List.mem_cons_self e rest))
    cases rest with
    | nil => simp [timeline_visit, he]
    | cons f rest2 =>
      rw [timeline_visit, if_neg he]
      exact ih u fun e' he' => h e' (List.mem_cons_of_mem e he')

/-- If the head event has fired and no later event's threshold has been
reached, the loop applies exactly the head's changes and pops exactly one
element. -/
lemma timeline_visit_head_fires (time t : ℚ)
    (changes : List ((String × String) × ℚ)) (rest : List TimelineEvent)
    (u : UpdMap) (ht : t ≤ time) (hrest : ∀ e ∈ rest, time < e.1) :
    timeline_visit time ((t, changes) :: rest) u
      = (apply_changes u changes, 1) := by
  cases rest with
  | nil => simp [timeline_visit, ht]
  | cons f rest2 =>
    rw [timeline_visit, if_pos ht,
      timeline_visit_no_fire time rest2 (apply_changes u changes)
        fun e he => hrest e (List.mem_cons_of_mem f he)]

/-- A key not named by any change is untouched by `apply_changes`. -/
lemma apply_changes_not_mem (u : UpdMap)
    (changes : List ((String × String) × ℚ)) (key : String × String)
    (h : ∀ c ∈ changes, c.1 ≠ key) : apply_changes u changes key = u key := by
  induction changes generalizing u with
  | nil => rfl
  | cons c cs ih =>
    rw [apply_changes, List.foldl_cons]
    have step : (cs.foldl (fun acc c' => upd_insert acc c'.1 (UpdVal.setv c'.2))
        (upd_insert u c.1 (UpdVal.setv c.2))) key
        = upd_insert u c.1 (UpdVal.setv c.2) key :=
      ih (upd_insert u c.1 (UpdVal.setv c.2))
        fun c' hc' => h c' (List.mem_cons_of_mem c hc')
    rw [step]
    simp only [upd_insert]
    rw [if_neg fun hk => h c (List.mem_cons_self c cs) hk.symm]

/-- With no duplicate keys among the changes, a named key is assigned its
declared value wrapped as a `set` update. -/
lemma apply_changes_mem (u : UpdMap)
    (changes : List ((String × String) × ℚ)) (key : String × String) (v : ℚ)
    (hnodup : (changes.map Prod.fst).Nodup) (hmem : (key, v) ∈ changes) :
    apply_changes u changes key = some (UpdVal.setv v) := by
  induction changes generalizing u with
  | nil => cases hmem
  | cons c cs ih =>
    rw [List.map_cons, List.nodup_cons] at hnodup
    rcases List.mem_cons.mp hmem with hc | hcs
    · have hkey : c.1 = key := by rw [← hc]
      have hnot : ∀ c' ∈ cs, c'.1 ≠ key := by
        intro c' hc' hk
        exact hnodup.1 (hkey ▸ hk ▸ List.mem_map_of_mem Prod.fst hc')
      rw [apply_changes, List.foldl_cons]
      rw [show (∀ w, cs.foldl
          (fun acc c' => upd_insert acc c'.1 (UpdVal.setv c'.2)) w
            = apply_changes w cs) from fun w => rfl]
      rw [apply_changes_not_mem _ cs key hnot, upd_insert, hkey, if_pos rfl,
        ← hc]
    · have := ih (upd_insert u c.1 (UpdVal.setv c.2)) hnodup.2 hcs
      rw [apply_changes, List.foldl_cons]
      exact this

/-- C3 counterexample: two sequential invocations of the same
`TimelineProcess` instance with identical timestep `1` and identical input
state (`global/time = 0`) return different updates — the first emits the
`set` for `(p, x)` and consumes the event, the second does not — so
`next_update` is not a pure function of `(timestep, bound_view)`. -/
theorem timeline_next_update_not_pure :
    (timeline_next_update 1 0 [(0, [(("p", "x"), 5)])]).1 ("p", "x")
        = some (UpdVal.setv 5) ∧
      (timeline_next_update 1 0 [(0, [(("p", "x"), 5)])]).2 = [] ∧
      (timeline_next_update 1 0
          (timeline_next_update 1 0 [(0, [(("p", "x"), 5)])]).2).1 ("p", "x")
        = none := by decide

/-- C3 (amended): `TimelineProcess.next_update` is a function of
`(timestep, bound_view)` and the mutable instance timeline it consumes;
whenever no event threshold has been reached it leaves the timeline intact,
and then re-invoking it with the same timestep and the same input state
returns the identical update.  (When an event fires, the timeline is popped
and sequential results differ, per the counterexample.) -/
theorem timeline_next_update_pure_without_firing (timestep time : ℚ)
    (tl : List TimelineEvent) (h : ∀ e ∈ tl, time < e.1) :
    timeline_next_update timestep time tl
        = (timeline_init_update timestep, tl) ∧
      timeline_next_update timestep time
          (timeline_next_update timestep time tl).2
        = timeline_next_update timestep time tl := by
  have h1 : timeline_next_update timestep time tl
      = (timeline_init_update timestep, tl) := by
    rw [timeline_next_update, timeline_visit_no_fire time tl _ h]
    rfl
  exact ⟨h1, by rw [h1]; exact h1⟩

/-- Witness for C3 (amended): with a single event whose threshold `3` lies
beyond the observed time `2`, the update is just the time accumulation and
re-invocation agrees. -/
theorem timeline_next_update_pure_without_firing_witness :
    timeline_next_update 1 2 [(3, [(("p", "x"), 5)])]
        = (timeline_init_update 1, [(3, [(("p", "x"), 5)])]) ∧
      timeline_next_update 1 2
          (timeline_next_update 1 2 [(3, [(("p", "x"), 5)])]).2
        = timeline_next_update 1 2 [(3, [(("p", "x"), 5)])] :=
  timeline_next_update_pure_without_firing 1 2 [(3, [(("p", "x"), 5)])]
    (by decide)

/-- C4 counterexample: `pop(0)` inside the iteration detaches the popped
element from the matched one.  With timeline
`[(10, {(p,a): 1}), (0, {(p,b): 2})]` observed at time `0`, the event at
threshold `0` fires but the pop removes the threshold-`10` event, so the
`(p,b)` event is emitted again by the next invocation (twice in total) and
the `(p,a)` event can never be emitted — events are not emitted exactly
once.  Moreover an event targeting `('global','time')` overwrites the
timestep accumulation entry with its `set` dict, so the update does not
always add `timestep` to the accumulated time variable. -/
theorem timeline_event_not_emitted_once :
    (timeline_next_update 1 0 [(10, [(("p", "a"), 1)]), (0, [(("p", "b"), 2)])]).1
        ("p", "b") = some (UpdVal.setv 2) ∧
      (timeline_next_update 1 0
          [(10, [(("p", "a"), 1)]), (0, [(("p", "b"), 2)])]).2
        = [(0, [(("p", "b"), 2)])] ∧
      (timeline_next_update 1 0 [(0, [(("p", "b"), 2)])]).1 ("p", "b")
        = some (UpdVal.setv 2) ∧
      (timeline_next_update 1 0 [(0, [(("p", "b"), 2)])]).2 = [] ∧
      (timeline_next_update 1 0
          [(10, [(("p", "a"), 1)]), (0, [(("p", "b"), 2)])]).1 ("p", "a")
        = none ∧
      (timeline_next_update 1 0 [(0, [(("p", "b"), 2)])]).1 ("p", "a")
        = none ∧
      (timeline_next_update 1 0 [(0, [(("global", "time"), 99)])]).1
          ("global", "time") = some (UpdVal.setv 99) := by decide

/-- C4 (amended): when the head event of the timeline is the only event
whose threshold is at or below the observed time, `next_update` assigns each
of that event's designated `(port, variable)` pairs its declared value with
the `set` updater, removes exactly that event from the timeline (so it is
emitted exactly once over the run), and — provided the event does not target
`('global','time')` itself — the update assigns the plain `timestep` delta to
the accumulated `global/time` variable.  (With several fired events per call,
or a fired event that is not the head, emission is not exactly-once, per the
counterexample.) -/
theorem timeline_head_event_fires_once (timestep time t : ℚ)
    (changes : List ((String × String) × ℚ)) (rest : List TimelineEvent)
    (ht : t ≤ time) (hrest : ∀ e ∈ rest, time < e.1)
    (hnodup : (changes.map Prod.fst).Nodup) :
    (timeline_next_update timestep time ((t, changes) :: rest)).2 = rest ∧
      (∀ pv v, (pv, v) ∈ changes →
        (timeline_next_update timestep time ((t, changes) :: rest)).1 pv
          = some (UpdVal.setv v)) ∧
      (("global", "time") ∉ changes.map Prod.fst →
        (timeline_next_update timestep time ((t, changes) :: rest)).1
            ("global", "time") = some (UpdVal.plain timestep)) := by
  have hv : timeline_visit time ((t, changes) :: rest)
      (timeline_init_update timestep)
      = (apply_changes (timeline_init_update timestep) changes, 1) :=
    timeline_visit_head_fires time t changes rest _ ht hrest
  have hu : timeline_next_update timestep time ((t, changes) :: rest)
      = (apply_changes (timeline_init_update timestep) changes, rest) := by
    rw [timeline_next_update, hv]
    rfl
  refine ⟨by rw [hu], fun pv v hmem => ?_, fun hgt => ?_⟩
  · rw [hu]
    exact apply_changes_mem _ changes pv v hnodup hmem
  · rw [hu]
    show apply_changes (timeline_init_update timestep) changes
        ("global", "time") = some (UpdVal.plain timestep)
    rw [apply_changes_not_mem _ changes ("global", "time")
      fun c hc hk => hgt (hk ▸ List.mem_map_of_mem Prod.fst hc)]
    simp [timeline_init_update]

/-- Witness for C4 (amended): a single fired head event at threshold `5`
observed at time `5` sets `(p, x)` to `9`, is removed from the timeline, and
the update still carries the plain timestep on `global/time`. -/
theorem timeline_head_event_fires_once_witness :
    (timeline_next_update 1 5 [(5, [(("p", "x"), 9)]), (7, [])]).2
        = [(7, [])] ∧
      (timeline_next_update 1 5 [(5, [(("p", "x"), 9)]), (7, [])]).1 ("p", "x")
        = some (UpdVal.setv 9) ∧
      (timeline_next_update 1 5 [(5, [(("p", "x"), 9)]), (7, [])]).1
          ("global", "time") = some (UpdVal.plain 1) := by
  obtain ⟨h1, h2, h3⟩ :=
    timeline_head_event_fires_once 1 5 5 [(("p", "x"), 9)] [(7, [])]
      (by decide) (by decide) (by decide)
  exact ⟨h1, h2 ("p", "x") 9 (by decide), h3 (by decide)⟩

/-! ## Scheduling of the run loop -/

/-- C5: Scheduling correctness of `run_incremental`.  For every start time
`t0`, horizon `run_until`, and positive time step `d`, the loop invokes the
per-step evolution exactly `N = ceil((run_until - t0) / d)` times (clamped to
zero when the horizon is already past), the `k`-th invocation occurring at
clock `t0 + (k + 1) * d` — a `t0`-plus-integer-multiple of `d` — and it
terminates with simulated time `t0 + N * d ≥ run_until`.  Any fuel bound of
at least `N` iterations reproduces the unbounded `while` loop. -/
theorem run_incremental_schedule (d run_until t0 : ℚ) (N fuel : ℕ)
    (hd : 0 < d) (hN : N = (⌈(run_until - t0) / d⌉).toNat)
    (hfuel : N ≤ fuel) :
    run_incremental d run_until fuel t0
        = (t0 + N * d, (List.range N).map fun k : ℕ => t0 + ((k : ℚ) + 1) * d) ∧
      run_until ≤ t0 + N * d := by
  induction fuel generalizing t0 N with
  | zero =>
    have hN0 : N = 0 := Nat.le_zero.mp hfuel
    subst hN0
    have hle : run_until ≤ t0 := by
      have hc : ⌈(run_until - t0) / d⌉ ≤ 0 := by omega
      have hq : (run_until - t0) / d ≤ 0 := by
        have := Int.ceil_le.mp hc
        simpa using this
      have := (div_le_iff₀ hd).mp hq
      linarith
    exact ⟨by simp [run_incremental], by simpa using hle⟩
  | succ fuel ih =>
    by_cases ht : t0 < run_until
    · have hpos : 0 < (run_until - t0) / d := div_pos (by linarith) hd
      have hc1 : 0 < ⌈(run_until - t0) / d⌉ := Int.ceil_pos.mpr hpos
      have hN1 : 1 ≤ N := by omega
      set N' : ℕ := N - 1 with hN'
      have hNsucc : N = N' + 1 := by omega
      have hstep : (run_until - (t0 + d)) / d = (run_until - t0) / d - 1 := by
        rw [show run_until - (t0 + d) = (run_until - t0) - d by ring, sub_div,
          div_self hd.ne']
      have hceil : ⌈(run_until - (t0 + d)) / d⌉ = ⌈(run_until - t0) / d⌉ - 1 := by
        rw [hstep]
        exact_mod_cast Int.ceil_sub_int ((run_until - t0) / d) 1
      have hN'eq : N' = (⌈(run_until - (t0 + d)) / d⌉).toNat := by
        rw [hceil]
        omega
      have hfuel' : N' ≤ fuel := by omega
      obtain ⟨ihval, ihle⟩ := ih (t0 + d) N' hN'eq hfuel'
      have hcast : ((N : ℚ)) = (N' : ℚ) + 1 := by
        rw [hNsucc]
        push_cast
        ring
      constructor
      · rw [run_incremental, if_pos ht, ihval]
        refine Prod.ext ?_ ?_
        · show t0 + d + (N' : ℚ) * d = t0 + (N : ℚ) * d
          rw [hcast]
          ring
        · show (t0 + d) :: ((List.range N').map fun k : ℕ => t0 + d + ((k : ℚ) + 1) * d)
            = (List.range N).map fun k : ℕ => t0 + ((k : ℚ) + 1) * d
          rw [hNsucc, List.range_succ_eq_map, List.map_cons, List.map_map]
          refine congrArg₂ List.cons (by push_cast; ring) ?_
          refine List.map_congr_left fun k _ => ?_
          show t0 + d + ((k : ℚ) + 1) * d
              = t0 + (((Nat.succ k : ℕ) : ℚ) + 1) * d
          push_cast
          ring
      · rw [hcast]
        linarith
    · have hle : run_until ≤ t0 := not_lt.mp ht
      have hN0 : N = 0 := by
        have hq : (run_until - t0) / d ≤ 0 :=
          div_nonpos_of_nonpos_of_nonneg (by linarith) hd.le
        have hc : ⌈(run_until - t0) / d⌉ ≤ 0 := by
          simpa using Int.ceil_le.mpr (by simpa using hq)
        omega
      subst hN0
      exact ⟨by rw [run_incremental, if_neg ht]; simp, by simpa using hle⟩

/-- Witness for C5 at the claim's concrete instance: time step `1` over a
horizon of `10` starting at `0` gives exactly `10` evolve invocations, at
clocks `1, 2, ..., 10`, ending at the horizon. -/
theorem run_incremental_schedule_witness :
    run_incremental 1 10 10 0
        = (0 + ((10 : ℕ) : ℚ) * 1,
            (List.range 10).map fun k : ℕ => 0 + ((k : ℚ) + 1) * 1) ∧
      (10 : ℚ) ≤ 0 + ((10 : ℕ) : ℚ) * 1 :=
  run_incremental_schedule 1 10 0 10 10 (by decide) (by simp) (by decide)

/-! ## Transcription loop termination and binding safety -/

/-- If enough sub-step time can still be accrued from the remaining fuel
(each iteration adds at least `1 / rate`), the loop exits with the guard
failed. -/
lemma transcription_loop_exits (rate : ℚ) (dist : ℕ → ℕ) (timestep : ℚ)
    (hr : 0 < rate) (hd : ∀ i, 0 < dist i) :
    ∀ (fuel i : ℕ) (time : ℚ), timestep ≤ time + (fuel : ℚ) / rate →
      ∃ r, transcription_loop rate dist timestep fuel i time = some r ∧
        timestep ≤ r := by
  intro fuel
  induction fuel with
  | zero =>
    intro i time h
    have hts : ¬ time < timestep := not_lt.mpr (by simpa using h)
    exact ⟨time, by rw [transcription_loop, if_neg hts], not_lt.mp hts⟩
  | succ fuel ih =>
    intro i time h
    by_cases hlt : time < timestep
    · have hone : (1 : ℚ) / rate ≤ (dist i : ℚ) / rate :=
        (div_le_div_iff_of_pos_right hr).mpr (Nat.one_le_cast.mpr (hd i))
      have hrec : timestep ≤ time + (dist i : ℚ) / rate + (fuel : ℚ) / rate := by
        have hsplit : ((fuel + 1 : ℕ) : ℚ) / rate
            = (fuel : ℚ) / rate + 1 / rate := by
          push_cast
          rw [add_div]
        have h' : timestep ≤ time + ((fuel : ℚ) / rate + 1 / rate) := by
          calc timestep ≤ time + ((fuel + 1 : ℕ) : ℚ) / rate := h
            _ = time + ((fuel : ℚ) / rate + 1 / rate) := by rw [hsplit]
        linarith
      obtain ⟨r, hr1, hr2⟩ := ih (i + 1) (time + (dist i : ℚ) / rate) hrec
      exact ⟨r, by rw [transcription_loop, if_pos hlt]; exact hr1, hr2⟩
    · exact ⟨time, by rw [transcription_loop, if_neg hlt], not_lt.mp hlt⟩

/-- C7: Termination of the coupled discrete-event / continuous-elongation
loop of `Transcription.next_update`.  For every positive timestep, positive
`elongation_rate`, and positive (whole-monomer) terminator distance on every
iteration, the `while time < timestep` loop performs finitely many
iterations — some finite iteration budget suffices for the guard to fail —
and the call returns, with the final sub-step time at or past the
timestep. -/
theorem transcription_loop_terminates (rate : ℚ) (dist : ℕ → ℕ)
    (timestep : ℚ) (hr : 0 < rate) (hd : ∀ i, 0 < dist i)
    (ht : 0 < timestep) :
    ∃ fuel r, transcription_loop rate dist timestep fuel 0 0 = some r ∧
      timestep ≤ r := by
  have hcnn : 0 ≤ ⌈timestep * rate⌉ :=
    Int.ceil_nonneg (mul_pos ht hr).le
  refine ⟨(⌈timestep * rate⌉).toNat, ?_⟩
  have hcast : (((⌈timestep * rate⌉).toNat : ℕ) : ℚ) = (⌈timestep * rate⌉ : ℚ) := by
    exact_mod_cast congrArg Int.cast (Int.toNat_of_nonneg hcnn)
  have hge : timestep ≤ (0 : ℚ) + ((⌈timestep * rate⌉).toNat : ℚ) / rate := by
    rw [zero_add, le_div_iff₀ hr, hcast]
    exact Int.le_ceil (timestep * rate)
  exact transcription_loop_exits rate dist timestep hr hd _ 0 0 hge

/-- Witness for C7 at a concrete instance: unit rate, unit distances, and
timestep `2`. -/
theorem transcription_loop_terminates_witness :
    ∃ fuel r, transcription_loop 1 (fun _ => 1) 2 fuel 0 0 = some r ∧
      (2 : ℚ) ≤ r :=
  transcription_loop_terminates 1 (fun _ => 1) 2 (by decide)
    (fun _ => Nat.one_pos) (by decide)

/-- C9: Safety of RNAP binding-event handling.  In
`Transcription.next_update` the bound domains of a promoter are a subset of
its domains, the substrate entry for a binding event is the promoter's copy
number (the count of its domains, per `promoter_copy_numbers`) minus its
bound-RNAP count (`len(bound_domains)`); whenever that entry was positive,
the open-domain set `promoter_domains - bound_domains` is non-empty, so
`choose_element` returns an actual domain (never `None`), and the returned
domain is a genuine open domain for the subsequent `bind_rnap`
bookkeeping. -/
theorem rnap_binding_choose_element_safe
    (promoter_domains bound_domains : Finset ℕ)
    (hsub : bound_domains ⊆ promoter_domains)
    (hpos : bound_domains.card < promoter_domains.card) (rand : ℕ) :
    (promoter_domains \ bound_domains).Nonempty ∧
      ∃ domain,
        choose_element rand (promoter_domains \ bound_domains).toList
            = some domain ∧
          domain ∈ promoter_domains \ bound_domains := by
  have hcard : 0 < (promoter_domains \ bound_domains).card := by
    rw [Finset.card_sdiff hsub]
    omega
  have hlen : 0 < (promoter_domains \ bound_domains).toList.length := by
    rw [Finset.length_toList]
    exact hcard
  refine ⟨Finset.card_pos.mp hcard, ?_⟩
  have hne : ¬ (promoter_domains \ bound_domains).toList.isEmpty := by
    rw [List.isEmpty_iff]
    exact List.ne_nil_of_length_pos hlen
  have hidx : rand % (promoter_domains \ bound_domains).toList.length
      < (promoter_domains \ bound_domains).toList.length :=
    Nat.mod_lt rand hlen
  refine ⟨(promoter_domains \ bound_domains).toList.get ⟨_, hidx⟩, ?_, ?_⟩
  · rw [choose_element, if_neg hne]
    exact List.get?_eq_get hidx
  · exact Finset.mem_toList.mp (List.get_mem _ _ hidx)

/-- Witness for C9: promoter domains `{0, 1}` with bound domain `{0}` leave
the open domain `1`, and `choose_element` returns it. -/
theorem rnap_binding_choose_element_safe_witness :
    (({0, 1} : Finset ℕ) \ {0}).Nonempty ∧
      ∃ domain,
        choose_element 0 (({0, 1} : Finset ℕ) \ {0}).toList = some domain ∧
          domain ∈ ({0, 1} : Finset ℕ) \ {0} :=
  rnap_binding_choose_element_safe {0, 1} {0} (by decide) (by decide) 0

end Vivarium
